import Mathlib

/-!
Verification of the fuzzymonth month-name parser (src/src/lib.rs).

The development shallowly embeds `parse_month` and its helper data:
the canonical month-name table, the international-variant table, the
denylist, the numeric-prefix scan, and the fuzzy matcher built on
strsim's `normalized_levenshtein`.  Similarity scores are modelled as
exact rationals; for the string lengths that occur here the `f64`
computation `1.0 - d / maxlen` and its comparisons agree with the exact
rational values, so `ℚ` is a faithful model of the score arithmetic.
-/

set_option maxRecDepth 40000

namespace Fuzzymonth

/-- Month of the year (lib.rs, `enum Month`). -/
inductive Month where
  | January
  | February
  | March
  | April
  | May
  | June
  | July
  | August
  | September
  | October
  | November
  | December
  deriving DecidableEq, Fintype, Repr

/-- The 1-based calendar index of a month (January = 1 … December = 12). -/
def monthNumber : Month → Nat
  | .January => 1
  | .February => 2
  | .March => 3
  | .April => 4
  | .May => 5
  | .June => 6
  | .July => 7
  | .August => 8
  | .September => 9
  | .October => 10
  | .November => 11
  | .December => 12

/-- Error type for validation errors (lib.rs, `enum ValidationError`). -/
inductive ValidationError where
  | InvalidEnumValue (msg : String)
  deriving DecidableEq, Repr

deriving instance DecidableEq for Except

/-- Map from month name to Month enum variant (lib.rs, `MONTH_NAMES`). -/
def MONTH_NAMES : List (String × Month) :=
  [("january", .January),
   ("february", .February),
   ("march", .March),
   ("april", .April),
   ("may", .May),
   ("june", .June),
   ("july", .July),
   ("august", .August),
   ("september", .September),
   ("october", .October),
   ("november", .November),
   ("december", .December)]

/-- An array of international month variants (lib.rs, `INTERNATIONAL_VARIANTS`). -/
def INTERNATIONAL_VARIANTS : List (String × Month) :=
  [("enero", .January), ("janvier", .January), ("januar", .January),
   ("gennaio", .January), ("styczeń", .January), ("январь", .January),
   ("يناير", .January), ("一月", .January)] ++
  [("febrero", .February), ("février", .February), ("februar", .February),
   ("febbraio", .February), ("luty", .February), ("февраль", .February),
   ("فبراير", .February), ("二月", .February)] ++
  [("marzo", .March), ("mars", .March), ("märz", .March),
   ("marzo", .March), ("marzec", .March), ("март", .March),
   ("مارس", .March), ("三月", .March)] ++
  [("abril", .April), ("avril", .April), ("april", .April),
   ("aprile", .April), ("kwiecień", .April), ("апрель", .April),
   ("أبريل", .April), ("四月", .April)] ++
  [("mayo", .May), ("mai", .May), ("mai", .May),
   ("maggio", .May), ("maj", .May), ("май", .May),
   ("مايو", .May), ("五月", .May)] ++
  [("junio", .June), ("juin", .June), ("juni", .June),
   ("giugno", .June), ("czerwiec", .June), ("июнь", .June),
   ("يونيو", .June), ("六月", .June)] ++
  [("julio", .July), ("juillet", .July), ("juli", .July),
   ("luglio", .July), ("lipiec", .July), ("июль", .July),
   ("يوليو", .July), ("七月", .July)] ++
  [("agosto", .August), ("août", .August), ("august", .August),
   ("agosto", .August), ("sierpień", .August), ("август", .August),
   ("أغسطس", .August), ("八月", .August)] ++
  [("septiembre", .September), ("septembre", .September), ("september", .September),
   ("settembre", .September), ("wrzesień", .September), ("сентябрь", .September),
   ("سبتمبر", .September), ("九月", .September)] ++
  [("octubre", .October), ("octobre", .October), ("oktober", .October),
   ("ottobre", .October), ("październik", .October), ("октябрь", .October),
   ("أكتوبر", .October), ("十月", .October)] ++
  [("noviembre", .November), ("novembre", .November), ("november", .November),
   ("novembre", .November), ("listopad", .November), ("ноябрь", .November),
   ("نوفمبر", .November), ("十一月", .November)] ++
  [("diciembre", .December), ("décembre", .December), ("dezember", .December),
   ("dicembre", .December), ("grudzień", .December), ("декабрь", .December),
   ("ديسمبر", .December), ("十二月", .December)]

/-- Required similarity threshold for fuzzy matching (lib.rs,
`SIMILARITY_THRESHOLD = 0.75`), as an exact rational.  Written with
`mkRat` so that it evaluates by kernel reduction; the lemma
`SIMILARITY_THRESHOLD_eq` identifies it with the literal `0.75`. -/
def SIMILARITY_THRESHOLD : ℚ := mkRat 3 4

/-! ### strsim: Levenshtein distance

strsim's `levenshtein` is the classic unit-cost edit distance; it is
modelled by Mathlib's `levenshtein` with the all-ones cost structure
`Levenshtein.defaultCost`. -/

/-- The cost structure of strsim's `levenshtein`: deletions, insertions
and substitutions all cost 1 (substituting a character by itself costs
0). -/
def strsimCost : Levenshtein.Cost Char Char ℕ := Levenshtein.defaultCost

/-- strsim `normalized_levenshtein`: `1 - d / max(|a|, |b|)`, and `1`
when both strings are empty, as an exact rational.  The value is
written in the equivalent single-fraction form `(max - d) / max` via
`mkRat` (over `ℤ`, so nothing truncates) because Batteries marks `ℚ`
field arithmetic irreducible, which would block kernel evaluation; the
lemma `normalized_levenshtein_eq` recovers the textbook form. -/
def normalized_levenshtein (a b : List Char) : ℚ :=
  if a = [] ∧ b = [] then 1
  else
    mkRat ((max a.length b.length : Int) - ((levenshtein strsimCost a b : Nat) : Int))
      (max a.length b.length)

/-! ### Normalization: `value.trim().to_lowercase()` -/

/-- Unicode `White_Space` property, as tested by Rust's `str::trim`. -/
def rustIsWhitespace (c : Char) : Bool :=
  [0x09, 0x0A, 0x0B, 0x0C, 0x0D, 0x20, 0x85, 0xA0, 0x1680,
   0x2000, 0x2001, 0x2002, 0x2003, 0x2004, 0x2005, 0x2006, 0x2007,
   0x2008, 0x2009, 0x200A, 0x2028, 0x2029, 0x202F, 0x205F, 0x3000].contains c.toNat

/-- Rust `str::trim`: remove leading and trailing whitespace. -/
def rustTrim (s : List Char) : List Char :=
  ((s.dropWhile rustIsWhitespace).reverse.dropWhile rustIsWhitespace).reverse

/-- Modelled: Rust `str::to_lowercase` performs full Unicode lowercasing;
on the ASCII inputs relevant to the tables of this crate it coincides
with per-character ASCII lowercasing, which is what `Char.toLower` does. -/
def rustToLowercase (s : List Char) : List Char :=
  s.map Char.toLower

/-- The normalized input `value.trim().to_lowercase()` computed at the
top of `parse_month`. -/
def normalize (s : List Char) : List Char :=
  rustToLowercase (rustTrim s)

/-! ### Stage 1: exact/abbreviation match, and stage 7: the fallback re-check -/

/-- The token table of the first `match` in `parse_month`, flattened in
source order: each `"a" | "b" | ... => return Ok(m)` arm contributes its
alternatives in order.  The arms are pairwise disjoint, so the `match`
is equivalent to an ordered first-match lookup in this list. -/
def exactTokens : List (String × Month) :=
  [("january", .January), ("jan", .January), ("ja", .January), ("1", .January), ("01", .January),
   ("february", .February), ("feb", .February), ("2", .February), ("02", .February),
   ("march", .March), ("mar", .March), ("3", .March), ("03", .March),
   ("april", .April), ("apr", .April), ("4", .April), ("04", .April),
   ("may", .May), ("5", .May), ("05", .May),
   ("june", .June), ("jun", .June), ("6", .June), ("06", .June),
   ("july", .July), ("jul", .July), ("7", .July), ("07", .July),
   ("august", .August), ("aug", .August), ("8", .August), ("08", .August),
   ("september", .September), ("sep", .September), ("sept", .September),
   ("9", .September), ("09", .September),
   ("october", .October), ("oct", .October), ("10", .October),
   ("november", .November), ("nov", .November), ("11", .November),
   ("december", .December), ("dec", .December), ("12", .December)]

/-- Stage 1 of `parse_month`: exact match including abbreviations. -/
def exactMatch (input : List Char) : Option Month :=
  (exactTokens.find? fun p => p.1.data == input).map fun p => p.2

/-- The token table of the final `match` in `parse_month` (the post-fuzzy
fallback re-check), flattened in source order.  It is NOT identical to
`exactTokens`: the January arm of this `match` lists
`"january" | "jan" | "1" | "01"` without the two-letter abbreviation
`"ja"` that the first `match` has. -/
def fallbackTokens : List (String × Month) :=
  [("january", .January), ("jan", .January), ("1", .January), ("01", .January),
   ("february", .February), ("feb", .February), ("2", .February), ("02", .February),
   ("march", .March), ("mar", .March), ("3", .March), ("03", .March),
   ("april", .April), ("apr", .April), ("4", .April), ("04", .April),
   ("may", .May), ("5", .May), ("05", .May),
   ("june", .June), ("jun", .June), ("6", .June), ("06", .June),
   ("july", .July), ("jul", .July), ("7", .July), ("07", .July),
   ("august", .August), ("aug", .August), ("8", .August), ("08", .August),
   ("september", .September), ("sep", .September), ("sept", .September),
   ("9", .September), ("09", .September),
   ("october", .October), ("oct", .October), ("10", .October),
   ("november", .November), ("nov", .November), ("11", .November),
   ("december", .December), ("dec", .December), ("12", .December)]

/-- Stage 7 of `parse_month`: the fallback exact re-check after the fuzzy
stage, over its own (45-entry) token table. -/
def fallbackMatch (input : List Char) : Option Month :=
  (fallbackTokens.find? fun p => p.1.data == input).map fun p => p.2

/-! ### Stage 2: numeric prefix -/

/-- Rust `str::parse::<u32>` on a string known to consist solely of
ASCII digits: fails on the empty string and on overflow past
`u32::MAX`, otherwise yields the decimal value. -/
def parse_u32 (s : List Char) : Option Nat :=
  if s = [] then none
  else
    let n := s.foldl (fun acc c => acc * 10 + (c.toNat - 48)) 0
    if n < 4294967296 then some n else none

/-- The inner `match num` dispatch of the numeric stage.  The code's
`_ => unreachable!()` arm is modelled as `none`. -/
def numToMonth : Nat → Option Month
  | 1 => some .January
  | 2 => some .February
  | 3 => some .March
  | 4 => some .April
  | 5 => some .May
  | 6 => some .June
  | 7 => some .July
  | 8 => some .August
  | 9 => some .September
  | 10 => some .October
  | 11 => some .November
  | 12 => some .December
  | _ => none

/-- Stage 2 of `parse_month`: take the leading run of ASCII digits,
parse it as `u32`, and accept values 1–12. -/
def numericPrefix (input : List Char) : Option Month :=
  match parse_u32 (input.takeWhile Char.isDigit) with
  | some num => if 1 ≤ num ∧ num ≤ 12 then numToMonth num else none
  | none => none

/-! ### Stage 3: international variants, stage 4: denylist -/

/-- Stage 3 of `parse_month`: first exact match in the
international-variant table. -/
def intlMatch (input : List Char) : Option Month :=
  (INTERNATIONAL_VARIANTS.find? fun p => p.1.data == input).map fun p => p.2

/-- Stage 4 of `parse_month`: the denylist `"marsh" | "julie" | "januori"`. -/
def isDenylisted (input : List Char) : Bool :=
  input == "marsh".data || input == "julie".data || input == "januori".data

/-! ### Stage 5: fuzzy matching -/

/-- The scored table built by the fuzzy stage: every canonical month
name paired with its normalized similarity to the input, in table
order. -/
def scoredMonths (input : List Char) : List (ℚ × Month) :=
  MONTH_NAMES.map fun p => (normalized_levenshtein input p.1.data, p.2)

/-- Rust `Iterator::max_by` with the comparator
`a.0.partial_cmp(&b.0).unwrap_or(Ordering::Greater)`: a left fold that
keeps the accumulator only when its score is strictly greater, so ties
go to the later element.  On `ℚ` the comparison is total, so the
`unwrap_or` default for incomparable values is never consulted. -/
def maxBy (l : List (ℚ × Month)) : Option (ℚ × Month) :=
  l.foldl
    (fun acc p =>
      match acc with
      | none => some p
      | some q => if q.1 > p.1 then some q else some p)
    none

/-- Stage 5 of `parse_month`: best fuzzy match, accepted when its score
reaches the threshold. -/
def fuzzyMatch (input : List Char) : Option Month :=
  match maxBy (scoredMonths input) with
  | some (similarity, month) =>
      if SIMILARITY_THRESHOLD ≤ similarity then some month else none
  | none => none

/-! ### The resolver -/

/-- The input-driven part of `parse_month`: the ordered stages on the
normalized input, `none` meaning that an error is returned.  The
denylist hit and the final fall-through produce the identical error
value in the source, so collapsing both to `none` is faithful. -/
def resolveCore (input : List Char) : Option Month :=
  match exactMatch input with
  | some m => some m
  | none =>
  match numericPrefix input with
  | some m => some m
  | none =>
  match intlMatch input with
  | some m => some m
  | none =>
  if isDenylisted input then none
  else
  match fuzzyMatch input with
  | some m => some m
  | none =>
  match fallbackMatch input with
  | some m => some m
  | none => none

/-- The error message: `"Invalid month: {value}. Enter a month from January
to December"`, built from the original raw input. -/
def invalidMonthMessage (value : String) : String :=
  "Invalid month: " ++ value ++ ". Enter a month from January to December"

/-- lib.rs `parse_month`. -/
def parse_month (value : String) : Except ValidationError Month :=
  match resolveCore (normalize value.data) with
  | some m => Except.ok m
  | none => Except.error (.InvalidEnumValue (invalidMonthMessage value))

/-! ### Variants of the resolver used by individual claims -/

/-- The resolver with the final fallback exact/abbreviation re-check
removed, for the dead-code claim about that re-check. -/
def resolveCoreNoFallback (input : List Char) : Option Month :=
  match exactMatch input with
  | some m => some m
  | none =>
  match numericPrefix input with
  | some m => some m
  | none =>
  match intlMatch input with
  | some m => some m
  | none =>
  if isDenylisted input then none
  else
  match fuzzyMatch input with
  | some m => some m
  | none => none

/-- `parse_month` with the fallback re-check removed. -/
def parse_month_noFallback (value : String) : Except ValidationError Month :=
  match resolveCoreNoFallback (normalize value.data) with
  | some m => Except.ok m
  | none => Except.error (.InvalidEnumValue (invalidMonthMessage value))

/-- The resolver with the panic path made explicit: the outer `none`
means the `unreachable!()` arm of the numeric dispatch was executed.
(The only other potentially-panicking operation, the `unwrap_or` on the
score comparison inside `max_by`, has no failure path in the model
because comparison of exact rationals is total.) -/
def resolveCoreChecked (input : List Char) : Option (Option Month) :=
  match exactMatch input with
  | some m => some (some m)
  | none =>
  match parse_u32 (input.takeWhile Char.isDigit) with
  | some num =>
      if 1 ≤ num ∧ num ≤ 12 then
        match numToMonth num with
        | some m => some (some m)
        | none => none
      else
      match intlMatch input with
      | some m => some (some m)
      | none =>
      if isDenylisted input then some none
      else
      match fuzzyMatch input with
      | some m => some (some m)
      | none => some (fallbackMatch input)
  | none =>
      match intlMatch input with
      | some m => some (some m)
      | none =>
      if isDenylisted input then some none
      else
      match fuzzyMatch input with
      | some m => some (some m)
      | none => some (fallbackMatch input)

/-- `parse_month` with the panic path made explicit: `none` means a
panic, `some r` means the function returns `r`. -/
def parse_monthChecked (value : String) : Option (Except ValidationError Month) :=
  match resolveCoreChecked (normalize value.data) with
  | none => none
  | some (some m) => some (Except.ok m)
  | some none => some (Except.error (.InvalidEnumValue (invalidMonthMessage value)))

/-! ### Character classes for the mutation claims -/

/-- ASCII punctuation (Rust `char::is_ascii_punctuation`) or ASCII
digit, as a predicate on codepoints. -/
def isPunctDigitNat (n : Nat) : Prop :=
  (33 ≤ n ∧ n ≤ 47) ∨ (48 ≤ n ∧ n ≤ 57) ∨ (58 ≤ n ∧ n ≤ 64) ∨
    (91 ≤ n ∧ n ≤ 96) ∨ (123 ≤ n ∧ n ≤ 126)

instance (n : Nat) : Decidable (isPunctDigitNat n) := by
  unfold isPunctDigitNat
  infer_instance

/-- All ASCII punctuation and digit characters. -/
def punctDigitChars : List Char :=
  ((List.range 128).filter fun n => isPunctDigitNat n).map Char.ofNat

/-- The size of the largest common multiset of characters of two
strings; `max |a| |b| - mcs a b` is a lower bound for the Levenshtein
distance of `a` and `b`. -/
def mcs (a b : List Char) : Nat :=
  ((a : Multiset Char) ∩ (b : Multiset Char)).card


/-! ### Basic facts about the unit-cost Levenshtein distance -/

theorem strsimCost_delete (a : Char) : strsimCost.delete a = 1 := rfl

theorem strsimCost_insert (a : Char) : strsimCost.insert a = 1 := rfl

theorem strsimCost_substitute (a b : Char) :
    strsimCost.substitute a b = if a = b then 0 else 1 := rfl

theorem lev_nil_left (ys : List Char) : levenshtein strsimCost [] ys = ys.length := by
  induction ys with
  | nil => simp
  | cons y ys ih => rw [levenshtein_nil_cons, strsimCost_insert, ih]; simp [Nat.add_comm]

theorem lev_nil_right (xs : List Char) : levenshtein strsimCost xs [] = xs.length := by
  induction xs with
  | nil => simp
  | cons x xs ih => rw [levenshtein_cons_nil, strsimCost_delete, ih]; simp [Nat.add_comm]

theorem lev_cons_cons (x y : Char) (xs ys : List Char) :
    levenshtein strsimCost (x :: xs) (y :: ys) =
      min (1 + levenshtein strsimCost xs (y :: ys))
        (min (1 + levenshtein strsimCost (x :: xs) ys)
          ((if x = y then 0 else 1) + levenshtein strsimCost xs ys)) := by
  rw [levenshtein_cons_cons, strsimCost_delete, strsimCost_insert, strsimCost_substitute]

theorem lev_self (xs : List Char) : levenshtein strsimCost xs xs = 0 := by
  induction xs with
  | nil => simp
  | cons x xs ih =>
      rw [lev_cons_cons, ih, if_pos rfl]
      omega

theorem eq_of_lev_eq_zero :
    ∀ (xs ys : List Char), levenshtein strsimCost xs ys = 0 → xs = ys := by
  intro xs
  induction xs with
  | nil =>
      intro ys h
      cases ys with
      | nil => rfl
      | cons y ys => rw [lev_nil_left] at h; simp at h
  | cons x xs ih =>
      intro ys h
      cases ys with
      | nil => rw [lev_nil_right] at h; simp at h
      | cons y ys =>
          rw [lev_cons_cons] at h
          by_cases hxy : x = y
          · subst hxy
            rw [if_pos rfl] at h
            have h4 : levenshtein strsimCost xs ys = 0 := by omega
            rw [ih ys h4]
          · rw [if_neg hxy] at h
            omega

theorem lev_prefix_le (a : List Char) (s t : List Char) :
    levenshtein strsimCost (a ++ s) (a ++ t) ≤ levenshtein strsimCost s t := by
  induction a with
  | nil => simp
  | cons x a ih =>
      calc levenshtein strsimCost (x :: (a ++ s)) (x :: (a ++ t))
          ≤ (if x = x then 0 else 1) + levenshtein strsimCost (a ++ s) (a ++ t) := by
            rw [lev_cons_cons]
            exact le_trans (Nat.min_le_right _ _) (Nat.min_le_right _ _)
        _ ≤ levenshtein strsimCost s t := by rw [if_pos rfl, Nat.zero_add]; exact ih

theorem lev_sub_single_le (c e : Char) (b : List Char) :
    levenshtein strsimCost (c :: b) (e :: b) ≤ 1 := by
  rw [lev_cons_cons]
  refine le_trans (le_trans (Nat.min_le_right _ _) (Nat.min_le_right _ _)) ?_
  rw [lev_self]
  split <;> simp

theorem lev_sub_le (a b : List Char) (c e : Char) :
    levenshtein strsimCost (a ++ c :: b) (a ++ e :: b) ≤ 1 :=
  le_trans (lev_prefix_le a _ _) (lev_sub_single_le c e b)

theorem lev_del_single_le (c : Char) (b : List Char) :
    levenshtein strsimCost (c :: b) b ≤ 1 := by
  cases b with
  | nil => rw [lev_nil_right]; simp
  | cons y ys =>
      rw [lev_cons_cons]
      refine le_trans (Nat.min_le_left _ _) ?_
      rw [lev_self]

theorem lev_del_le (a b : List Char) (c : Char) :
    levenshtein strsimCost (a ++ c :: b) (a ++ b) ≤ 1 :=
  le_trans (lev_prefix_le a _ _) (lev_del_single_le c b)



/-! ### The common-multiset lower bound for the Levenshtein distance -/

theorem mcs_count (s t : List Char) (a : Char) :
    Multiset.count a ((s : Multiset Char) ∩ (t : Multiset Char)) =
      min (s.count a) (t.count a) := by
  rw [Multiset.count_inter, Multiset.coe_count, Multiset.coe_count]

theorem mcs_cons_left_le (x : Char) (s t : List Char) :
    mcs (x :: s) t ≤ mcs s t + 1 := by
  unfold mcs
  have h : ((x :: s : List Char) : Multiset Char) ∩ (t : Multiset Char) ≤
      x ::ₘ ((s : Multiset Char) ∩ (t : Multiset Char)) := by
    rw [Multiset.le_iff_count]
    intro a
    rw [Multiset.count_cons, mcs_count, mcs_count, List.count_cons]
    simp only [beq_iff_eq]
    by_cases hax : a = x
    · subst hax
      simp only [eq_self_iff_true, if_true]
      omega
    · rw [if_neg hax, if_neg (fun h => hax h.symm)]
      omega
  have hcard := Multiset.card_le_card h
  rw [Multiset.card_cons] at hcard
  exact hcard

theorem mcs_le_cons_left (x : Char) (s t : List Char) :
    mcs s t ≤ mcs (x :: s) t := by
  unfold mcs
  refine Multiset.card_le_card ?_
  rw [Multiset.le_iff_count]
  intro a
  rw [mcs_count, mcs_count, List.count_cons]
  simp only [beq_iff_eq]
  by_cases hax : x = a
  · rw [if_pos hax]; omega
  · rw [if_neg hax]; omega

theorem mcs_le_cons_right (y : Char) (s t : List Char) :
    mcs s t ≤ mcs s (y :: t) := by
  unfold mcs
  refine Multiset.card_le_card ?_
  rw [Multiset.le_iff_count]
  intro a
  rw [mcs_count, mcs_count, List.count_cons]
  simp only [beq_iff_eq]
  by_cases hay : y = a
  · rw [if_pos hay]; omega
  · rw [if_neg hay]; omega

theorem mcs_cons_cons_ge (x : Char) (s t : List Char) :
    mcs s t + 1 ≤ mcs (x :: s) (x :: t) := by
  unfold mcs
  have h : x ::ₘ ((s : Multiset Char) ∩ (t : Multiset Char)) ≤
      ((x :: s : List Char) : Multiset Char) ∩ ((x :: t : List Char) : Multiset Char) := by
    rw [Multiset.le_iff_count]
    intro a
    rw [Multiset.count_cons, mcs_count, mcs_count, List.count_cons, List.count_cons]
    simp only [beq_iff_eq]
    by_cases hax : a = x
    · subst hax
      simp only [eq_self_iff_true, if_true]
      omega
    · rw [if_neg hax, if_neg (fun h => hax h.symm)]
      omega
  have hcard := Multiset.card_le_card h
  rw [Multiset.card_cons] at hcard
  exact hcard

theorem le_lev_add_mcs (n : Nat) :
    ∀ (s t : List Char), s.length + t.length ≤ n →
      t.length ≤ levenshtein strsimCost s t + mcs s t ∧
        s.length ≤ levenshtein strsimCost s t + mcs s t := by
  induction n with
  | zero =>
      intro s t h
      have hs : s = [] := by
        cases s with
        | nil => rfl
        | cons a l => simp at h
      have ht : t = [] := by
        cases t with
        | nil => rfl
        | cons a l => simp at h
      subst hs; subst ht
      simp
  | succ n ih =>
      intro s t h
      cases s with
      | nil =>
          rw [lev_nil_left]
          constructor <;> simp
      | cons x xs =>
        cases t with
        | nil =>
            rw [lev_nil_right]
            constructor <;> simp
        | cons y ys =>
            have ih1 := ih xs (y :: ys) (by simp at h ⊢; omega)
            have ih2 := ih (x :: xs) ys (by simp at h ⊢; omega)
            have ih3 := ih xs ys (by simp at h ⊢; omega)
            have f1 := mcs_le_cons_left x xs (y :: ys)
            have f2 := mcs_le_cons_right y (x :: xs) ys
            rw [lev_cons_cons]
            by_cases hxy : x = y
            · subst hxy
              have f3 := mcs_cons_cons_ge x xs ys
              rw [if_pos rfl]
              simp only [List.length_cons] at *
              omega
            · have f3 : mcs xs ys ≤ mcs (x :: xs) (y :: ys) :=
                le_trans (mcs_le_cons_left x xs ys) (mcs_le_cons_right y (x :: xs) ys)
              rw [if_neg hxy]
              simp only [List.length_cons] at *
              omega

theorem max_sub_mcs_le_lev (s t : List Char) :
    max s.length t.length - mcs s t ≤ levenshtein strsimCost s t := by
  have h := le_lev_add_mcs (s.length + t.length) s t le_rfl
  omega

theorem mcs_set_le (w t : List Char) (i : Nat) (c : Char)
    (hi : i < w.length) (hc : c ∉ t) :
    mcs (w.set i c) t ≤ mcs w t := by
  unfold mcs
  refine Multiset.card_le_card ?_
  rw [Multiset.le_iff_count]
  intro a
  rw [mcs_count, mcs_count]
  by_cases hac : a = c
  · subst hac
    rw [List.count_eq_zero_of_not_mem hc]
    omega
  · have h1 : (w.set i c).count a ≤ w.count a := by
      rw [List.set_eq_take_cons_drop c hi]
      conv_rhs =>
        rw [← List.take_append_drop i w, List.drop_eq_getElem_cons hi]
      rw [List.count_append, List.count_append, List.count_cons, List.count_cons]
      simp only [beq_iff_eq]
      rw [if_neg (fun h => hac h.symm)]
      by_cases haw : w[i] = a
      · rw [if_pos haw]; omega
      · rw [if_neg haw]
    omega



/-! ### The similarity score against the threshold -/

theorem SIMILARITY_THRESHOLD_eq : SIMILARITY_THRESHOLD = 0.75 := by
  rw [SIMILARITY_THRESHOLD, Rat.mkRat_eq_div]
  norm_num

theorem normalized_levenshtein_eq (a b : List Char) :
    normalized_levenshtein a b =
      if a = [] ∧ b = [] then 1
      else 1 - ((levenshtein strsimCost a b : Nat) : ℚ) / ((max a.length b.length : Nat) : ℚ) := by
  unfold normalized_levenshtein
  split
  · rfl
  · rename_i h
    rw [Rat.mkRat_eq_div]
    have h0 : 0 < max a.length b.length := by
      rcases Nat.eq_zero_or_pos (max a.length b.length) with h0 | h0
      · exfalso
        rcases Nat.max_eq_zero_iff.mp h0 with ⟨ha, hb⟩
        exact h ⟨List.eq_nil_of_length_eq_zero ha, List.eq_nil_of_length_eq_zero hb⟩
      · exact h0
    generalize hm : max a.length b.length = m
    rw [hm] at h0
    have hq : ((m : Nat) : ℚ) ≠ 0 := by
      exact_mod_cast Nat.pos_iff_ne_zero.mp h0
    push_cast
    rw [← Nat.cast_max, hm, sub_div, div_self hq]

theorem score_lt_of_lev_bound (s t : List Char) (B : Nat)
    (hB : B ≤ levenshtein strsimCost s t)
    (h4 : max s.length t.length < 4 * B) (ht : t ≠ []) :
    normalized_levenshtein s t < SIMILARITY_THRESHOLD := by
  unfold normalized_levenshtein SIMILARITY_THRESHOLD
  rw [if_neg (by rintro ⟨h1, h2⟩; exact ht h2)]
  have hM : 0 < max s.length t.length := by
    have := List.length_pos.mpr ht
    omega
  rw [Rat.mkRat_eq_div, Rat.mkRat_eq_div]
  rw [div_lt_div_iff₀ (by exact_mod_cast hM) (by norm_num)]
  have key : ((max s.length t.length : Int) - ((levenshtein strsimCost s t : Nat) : Int)) * 4 <
      3 * (max s.length t.length : Int) := by omega
  exact_mod_cast key

theorem threshold_le_score (s t : List Char)
    (hlev : levenshtein strsimCost s t ≤ 1) (hM : 4 ≤ max s.length t.length) :
    SIMILARITY_THRESHOLD ≤ normalized_levenshtein s t := by
  unfold normalized_levenshtein SIMILARITY_THRESHOLD
  rw [if_neg (by rintro ⟨h1, h2⟩; subst h1; subst h2; simp at hM)]
  rw [Rat.mkRat_eq_div, Rat.mkRat_eq_div]
  rw [div_le_div_iff₀ (by norm_num) (by exact_mod_cast (by omega : 0 < max s.length t.length))]
  have key : 3 * (max s.length t.length : Int) ≤
      ((max s.length t.length : Int) - ((levenshtein strsimCost s t : Nat) : Int)) * 4 := by omega
  exact_mod_cast key



/-! ### The selection behaviour of the max_by fold: ties go to the later
element -/

/-- One step of the fold underlying `maxBy`, with the accumulator made
total: the accumulator survives only when its score is strictly
greater. -/
def maxStep (q p : ℚ × Month) : ℚ × Month := if q.1 > p.1 then q else p

theorem foldl_some (l : List (ℚ × Month)) : ∀ (q : ℚ × Month),
    l.foldl
      (fun acc p =>
        match acc with
        | none => some p
        | some q => if q.1 > p.1 then some q else some p)
      (some q) = some (l.foldl maxStep q) := by
  induction l with
  | nil => intro q; rfl
  | cons p l ih =>
      intro q
      rw [List.foldl_cons, List.foldl_cons]
      have hstep : (match some q with
          | none => some p
          | some r => if r.1 > p.1 then some r else some p) = some (maxStep q p) := by
        show (if q.1 > p.1 then some q else some p) = some (maxStep q p)
        unfold maxStep
        split <;> rfl
      rw [hstep, ih]

theorem maxBy_cons (p : ℚ × Month) (l : List (ℚ × Month)) :
    maxBy (p :: l) = some (l.foldl maxStep p) := by
  unfold maxBy
  rw [List.foldl_cons]
  exact foldl_some l p

theorem maxStep_fst_left (q p : ℚ × Month) : q.1 ≤ (maxStep q p).1 := by
  unfold maxStep
  split
  · exact le_rfl
  · rename_i h
    exact not_lt.mp h

theorem maxStep_fst_right (q p : ℚ × Month) : p.1 ≤ (maxStep q p).1 := by
  unfold maxStep
  split
  · rename_i h
    exact le_of_lt h
  · exact le_rfl

theorem goFold_spec (l : List (ℚ × Month)) : ∀ (q : ℚ × Month),
    (l.foldl maxStep q = q ∧ ∀ p ∈ l, p.1 < q.1) ∨
    (∃ i, ∃ hi : i < l.length, l.foldl maxStep q = l[i] ∧ q.1 ≤ (l[i]).1 ∧
      (∀ j, ∀ hj : j < l.length, (l[j]).1 ≤ (l[i]).1) ∧
      (∀ j, ∀ hj : j < l.length, i < j → (l[j]).1 < (l[i]).1)) := by
  induction l with
  | nil =>
      intro q
      left
      exact ⟨rfl, by simp⟩
  | cons p l ih =>
      intro q
      rw [List.foldl_cons]
      rcases ih (maxStep q p) with ⟨heq, hall⟩ | ⟨i, hi, heq, hq, hmax, hstrict⟩
      · by_cases hqp : q.1 > p.1
        · left
          have hmq : maxStep q p = q := by unfold maxStep; rw [if_pos hqp]
          refine ⟨by rw [heq, hmq], ?_⟩
          intro r hr
          rcases List.mem_cons.mp hr with rfl | hr
          · exact hqp
          · have h1 := hall r hr
            rw [hmq] at h1
            exact h1
        · right
          have hmq : maxStep q p = p := by unfold maxStep; rw [if_neg hqp]
          refine ⟨0, by simp, ?_, ?_, ?_, ?_⟩
          · simp only [List.getElem_cons_zero]
            rw [heq, hmq]
          · simp only [List.getElem_cons_zero]
            exact not_lt.mp hqp
          · intro j hj
            cases j with
            | zero => simp
            | succ j =>
                have hj2 : j < l.length := by simp at hj; omega
                simp only [List.getElem_cons_zero, List.getElem_cons_succ]
                have h1 := hall (l[j]) (List.getElem_mem _)
                rw [hmq] at h1
                exact le_of_lt h1
          · intro j hj hpos
            cases j with
            | zero => omega
            | succ j =>
                have hj2 : j < l.length := by simp at hj; omega
                simp only [List.getElem_cons_zero, List.getElem_cons_succ]
                have h1 := hall (l[j]) (List.getElem_mem _)
                rw [hmq] at h1
                exact h1
      · right
        refine ⟨i + 1, by simp; omega, ?_, ?_, ?_, ?_⟩
        · simp only [List.getElem_cons_succ]
          exact heq
        · simp only [List.getElem_cons_succ]
          exact le_trans (maxStep_fst_left q p) hq
        · intro j hj
          cases j with
          | zero =>
              simp only [List.getElem_cons_zero, List.getElem_cons_succ]
              exact le_trans (maxStep_fst_right q p) hq
          | succ j =>
              simp only [List.getElem_cons_succ]
              exact hmax j (by simpa using hj)
        · intro j hj hij
          cases j with
          | zero => omega
          | succ j =>
              simp only [List.getElem_cons_succ]
              exact hstrict j (by simpa using hj) (by omega)

theorem maxBy_spec (l : List (ℚ × Month)) (hne : l ≠ []) :
    ∃ i, ∃ hi : i < l.length, maxBy l = some (l[i]) ∧
      (∀ j, ∀ hj : j < l.length, (l[j]).1 ≤ (l[i]).1) ∧
      (∀ j, ∀ hj : j < l.length, i < j → (l[j]).1 < (l[i]).1) := by
  cases l with
  | nil => exact absurd rfl hne
  | cons p l =>
      rw [maxBy_cons]
      rcases goFold_spec l p with ⟨heq, hall⟩ | ⟨i, hi, heq, hq, hmax, hstrict⟩
      · refine ⟨0, by simp, ?_, ?_, ?_⟩
        · simp only [List.getElem_cons_zero]
          rw [heq]
        · intro j hj
          cases j with
          | zero => simp
          | succ j =>
              have hj2 : j < l.length := by simp at hj; omega
              simp only [List.getElem_cons_zero, List.getElem_cons_succ]
              exact le_of_lt (hall (l[j]) (List.getElem_mem _))
        · intro j hj hpos
          cases j with
          | zero => omega
          | succ j =>
              have hj2 : j < l.length := by simp at hj; omega
              simp only [List.getElem_cons_zero, List.getElem_cons_succ]
              exact hall (l[j]) (List.getElem_mem _)
      · refine ⟨i + 1, by simp; omega, ?_, ?_, ?_⟩
        · simp only [List.getElem_cons_succ]
          rw [heq]
        · intro j hj
          cases j with
          | zero =>
              simp only [List.getElem_cons_zero, List.getElem_cons_succ]
              exact hq
          | succ j =>
              simp only [List.getElem_cons_succ]
              exact hmax j (by simpa using hj)
        · intro j hj hij
          cases j with
          | zero => omega
          | succ j =>
              simp only [List.getElem_cons_succ]
              exact hstrict j (by simpa using hj) (by omega)



/-! ### The fuzzy stage as a function of the individual scores -/

theorem fuzzyMatch_eq (input : List Char) (sim : ℚ) (mo : Month)
    (h : maxBy (scoredMonths input) = some (sim, mo)) :
    fuzzyMatch input = if SIMILARITY_THRESHOLD ≤ sim then some mo else none := by
  unfold fuzzyMatch
  rw [h]

theorem scoredMonths_ne_nil (input : List Char) : scoredMonths input ≠ [] := by
  simp [scoredMonths, MONTH_NAMES]

theorem scoredMonths_len (input : List Char) :
    (scoredMonths input).length = MONTH_NAMES.length := List.length_map _ _

theorem scoredMonths_get (input : List Char) (j : Nat)
    (hj : j < (scoredMonths input).length) (hj2 : j < MONTH_NAMES.length) :
    (scoredMonths input)[j] =
      (normalized_levenshtein input ((MONTH_NAMES[j]).1.data), (MONTH_NAMES[j]).2) := by
  simp only [scoredMonths, List.getElem_map]

theorem fuzzyMatch_eq_none_of_below (input : List Char)
    (h : ∀ p ∈ MONTH_NAMES, normalized_levenshtein input p.1.data < SIMILARITY_THRESHOLD) :
    fuzzyMatch input = none := by
  obtain ⟨i, hi, heq, hmax, hstrict⟩ := maxBy_spec (scoredMonths input) (scoredMonths_ne_nil input)
  have heq' : maxBy (scoredMonths input) =
      some (((scoredMonths input)[i]).1, ((scoredMonths input)[i]).2) := by
    rw [heq]
  rw [fuzzyMatch_eq input _ _ heq']
  have hi' : i < MONTH_NAMES.length := by rw [← scoredMonths_len input]; exact hi
  have hs := scoredMonths_get input i hi hi'
  rw [if_neg]
  rw [not_le, hs]
  exact h (MONTH_NAMES[i]) (List.getElem_mem _)

theorem fuzzyMatch_eq_some_of (input w : List Char) (m : Month)
    (hmem : ∃ k, ∃ hk : k < MONTH_NAMES.length,
      (MONTH_NAMES[k]).1.data = w ∧ (MONTH_NAMES[k]).2 = m)
    (hthr : SIMILARITY_THRESHOLD ≤ normalized_levenshtein input w)
    (hothers : ∀ p ∈ MONTH_NAMES, p.1.data ≠ w →
      normalized_levenshtein input p.1.data < normalized_levenshtein input w)
    (huniq : ∀ p ∈ MONTH_NAMES, p.1.data = w → p.2 = m) :
    fuzzyMatch input = some m := by
  obtain ⟨k, hk, hkw, hkm⟩ := hmem
  obtain ⟨i, hi, heq, hmax, hstrict⟩ := maxBy_spec (scoredMonths input) (scoredMonths_ne_nil input)
  have heq' : maxBy (scoredMonths input) =
      some (((scoredMonths input)[i]).1, ((scoredMonths input)[i]).2) := by
    rw [heq]
  rw [fuzzyMatch_eq input _ _ heq']
  have hi' : i < MONTH_NAMES.length := by rw [← scoredMonths_len input]; exact hi
  have hk' : k < (scoredMonths input).length := by rw [scoredMonths_len input]; exact hk
  have hsi := scoredMonths_get input i hi hi'
  have hsk := scoredMonths_get input k hk' hk
  have hscorek : ((scoredMonths input)[k]).1 = normalized_levenshtein input w := by
    rw [hsk, hkw]
  by_cases hw : (MONTH_NAMES[i]).1.data = w
  · have hione : ((scoredMonths input)[i]).1 = normalized_levenshtein input w := by
      rw [hsi, hw]
    rw [if_pos (by rw [hione]; exact hthr)]
    have : ((scoredMonths input)[i]).2 = m := by
      rw [hsi]
      exact huniq (MONTH_NAMES[i]) (List.getElem_mem _) hw
    rw [this]
  · exfalso
    have h1 : ((scoredMonths input)[i]).1 < normalized_levenshtein input w := by
      rw [hsi]
      exact hothers (MONTH_NAMES[i]) (List.getElem_mem _) hw
    have h2 := hmax k hk'
    rw [hscorek] at h2
    exact absurd (lt_of_le_of_lt h2 h1) (lt_irrefl _)



/-! ### Character-level facts about lowercasing and whitespace -/

theorem toNat_ofNat_of_valid (n : Nat) (h : n < 55296) : (Char.ofNat n).toNat = n := by
  rw [Char.ofNat, dif_pos (Or.inl h)]
  rfl

theorem toLower_def (c : Char) :
    Char.toLower c = if c.toNat ≥ 65 ∧ c.toNat ≤ 90 then Char.ofNat (c.toNat + 32) else c := rfl

theorem toLower_toNat (c : Char) :
    (Char.toLower c).toNat =
      if c.toNat ≥ 65 ∧ c.toNat ≤ 90 then c.toNat + 32 else c.toNat := by
  rw [toLower_def]
  split
  · rename_i h
    exact toNat_ofNat_of_valid _ (by omega)
  · rfl

theorem toLower_eq_self_of (c : Char) (h : ¬(c.toNat ≥ 65 ∧ c.toNat ≤ 90)) :
    Char.toLower c = c := by
  rw [toLower_def, if_neg h]

theorem toLower_idem (c : Char) : c.toLower.toLower = c.toLower := by
  by_cases h : c.toNat ≥ 65 ∧ c.toNat ≤ 90
  · apply toLower_eq_self_of
    rw [toLower_toNat, if_pos h]
    omega
  · rw [toLower_eq_self_of c h, toLower_eq_self_of c h]

theorem rustIsWhitespace_iff (c : Char) :
    rustIsWhitespace c = true ↔
      c.toNat ∈ ([0x09, 0x0A, 0x0B, 0x0C, 0x0D, 0x20, 0x85, 0xA0, 0x1680,
        0x2000, 0x2001, 0x2002, 0x2003, 0x2004, 0x2005, 0x2006, 0x2007,
        0x2008, 0x2009, 0x200A, 0x2028, 0x2029, 0x202F, 0x205F, 0x3000] : List Nat) := by
  unfold rustIsWhitespace
  exact List.elem_iff

theorem ws_false_of_range (c : Char) (h1 : 33 ≤ c.toNat) (h2 : c.toNat ≤ 126) :
    rustIsWhitespace c = false := by
  rw [Bool.eq_false_iff]
  intro hw
  have hmem := (rustIsWhitespace_iff c).mp hw
  simp only [List.mem_cons, List.not_mem_nil, or_false] at hmem
  rcases hmem with h|h|h|h|h|h|h|h|h|h|h|h|h|h|h|h|h|h|h|h|h|h|h|h|h <;> omega

theorem toLower_ws (c : Char) :
    rustIsWhitespace (Char.toLower c) = rustIsWhitespace c := by
  by_cases h : c.toNat ≥ 65 ∧ c.toNat ≤ 90
  · have h1 : rustIsWhitespace (Char.toLower c) = false := by
      apply ws_false_of_range
      · rw [toLower_toNat, if_pos h]; omega
      · rw [toLower_toNat, if_pos h]; omega
    have h2 : rustIsWhitespace c = false := ws_false_of_range c (by omega) (by omega)
    rw [h1, h2]
  · rw [toLower_eq_self_of c h]

/-! ### Fixed points of trimming and lowercasing -/

theorem dropWhile_eq_self_of_head (p : Char → Bool) (l : List Char)
    (h : ∀ c, l.head? = some c → p c = false) : l.dropWhile p = l := by
  cases l with
  | nil => rfl
  | cons x l =>
      rw [List.dropWhile_cons, if_neg]
      rw [h x rfl]
      simp

theorem head?_dropWhile (p : Char → Bool) (l : List Char) :
    ∀ c, (l.dropWhile p).head? = some c → p c = false := by
  induction l with
  | nil => intro c hc; simp at hc
  | cons x l ih =>
      intro c hc
      rw [List.dropWhile_cons] at hc
      by_cases hx : p x = true
      · rw [if_pos hx] at hc
        exact ih c hc
      · rw [if_neg hx] at hc
        simp only [List.head?_cons, Option.some.injEq] at hc
        subst hc
        exact Bool.eq_false_iff.mpr hx

theorem dropWhile_eq_self_of_all (p : Char → Bool) (l : List Char)
    (h : ∀ x ∈ l, p x = false) : l.dropWhile p = l := by
  cases l with
  | nil => rfl
  | cons x l =>
      rw [List.dropWhile_cons, if_neg]
      rw [h x (List.mem_cons_self x l)]
      simp

theorem rustTrim_eq_self (s : List Char) (h : ∀ x ∈ s, rustIsWhitespace x = false) :
    rustTrim s = s := by
  unfold rustTrim
  rw [dropWhile_eq_self_of_all _ s h,
    dropWhile_eq_self_of_all _ s.reverse (fun x hx => h x (List.mem_reverse.mp hx)),
    List.reverse_reverse]

theorem map_eq_self_of (f : Char → Char) (l : List Char) (h : ∀ x ∈ l, f x = x) :
    l.map f = l := by
  induction l with
  | nil => rfl
  | cons x l ih =>
      rw [List.map_cons, h x (List.mem_cons_self x l),
        ih (fun y hy => h y (List.mem_cons_of_mem x hy))]

theorem normalize_eq_self (s : List Char)
    (h : ∀ x ∈ s, rustIsWhitespace x = false ∧ Char.toLower x = x) :
    normalize s = s := by
  unfold normalize rustToLowercase
  rw [rustTrim_eq_self s (fun x hx => (h x hx).1), map_eq_self_of _ s (fun x hx => (h x hx).2)]

/-! ### Idempotence of normalization -/

theorem rustTrim_head_clean (s : List Char) :
    ∀ c, (rustTrim s).head? = some c → rustIsWhitespace c = false := by
  intro c hc
  unfold rustTrim at hc
  rw [List.head?_reverse] at hc
  obtain ⟨t, ht⟩ :=
    List.dropWhile_suffix (l := (s.dropWhile rustIsWhitespace).reverse) rustIsWhitespace
  have h2 : ((s.dropWhile rustIsWhitespace).reverse).getLast? = some c := by
    rw [← ht, List.getLast?_append, hc]
    rfl
  rw [← List.head?_eq_getLast?_reverse] at h2
  exact head?_dropWhile _ _ c h2

theorem rustTrim_last_clean (s : List Char) :
    ∀ c, (rustTrim s).reverse.head? = some c → rustIsWhitespace c = false := by
  intro c hc
  unfold rustTrim at hc
  rw [List.reverse_reverse] at hc
  exact head?_dropWhile _ _ c hc

theorem rustTrim_map_toLower (s : List Char) :
    rustTrim ((rustTrim s).map Char.toLower) = (rustTrim s).map Char.toLower := by
  set u := rustTrim s with hu
  have hinner : (u.map Char.toLower).dropWhile rustIsWhitespace = u.map Char.toLower := by
    apply dropWhile_eq_self_of_head
    intro c hc
    rw [List.head?_map] at hc
    cases hh : u.head? with
    | none => rw [hh] at hc; simp at hc
    | some d =>
        rw [hh] at hc
        have hdc : Char.toLower d = c := by simpa using hc
        subst hdc
        rw [toLower_ws]
        exact rustTrim_head_clean s d (by rw [← hu]; exact hh)
  have houter : ((u.map Char.toLower).reverse).dropWhile rustIsWhitespace =
      (u.map Char.toLower).reverse := by
    apply dropWhile_eq_self_of_head
    intro c hc
    rw [← List.map_reverse, List.head?_map] at hc
    cases hh : u.reverse.head? with
    | none => rw [hh] at hc; simp at hc
    | some d =>
        rw [hh] at hc
        have hdc : Char.toLower d = c := by simpa using hc
        subst hdc
        rw [toLower_ws]
        exact rustTrim_last_clean s d (by rw [← hu]; exact hh)
  show rustTrim (u.map Char.toLower) = u.map Char.toLower
  unfold rustTrim
  rw [hinner, houter, List.reverse_reverse]

theorem map_toLower_idem (l : List Char) :
    (l.map Char.toLower).map Char.toLower = l.map Char.toLower := by
  induction l with
  | nil => rfl
  | cons x l ih => simp only [List.map_cons, toLower_idem, ih]

theorem normalize_idem (s : List Char) : normalize (normalize s) = normalize s := by
  show normalize (rustToLowercase (rustTrim s)) = normalize s
  unfold normalize rustToLowercase
  rw [rustTrim_map_toLower s, map_toLower_idem]



/-! ### Composing the resolver from its stages -/

theorem fallback_subset : ∀ t ∈ fallbackTokens, t ∈ exactTokens := by decide

theorem fallbackMatch_none_of_exact (input : List Char)
    (h : exactMatch input = none) : fallbackMatch input = none := by
  unfold exactMatch at h
  unfold fallbackMatch
  rw [Option.map_eq_none'] at h ⊢
  rw [List.find?_eq_none] at h ⊢
  intro t ht
  exact h t (fallback_subset t ht)

theorem resolveCore_exact (input : List Char) (m : Month)
    (h : exactMatch input = some m) : resolveCore input = some m := by
  unfold resolveCore
  rw [h]

theorem resolveCore_numeric (input : List Char) (m : Month)
    (he : exactMatch input = none) (hn : numericPrefix input = some m) :
    resolveCore input = some m := by
  unfold resolveCore
  rw [he, hn]

theorem resolveCore_fuzzy (input : List Char)
    (he : exactMatch input = none) (hn : numericPrefix input = none)
    (hl : intlMatch input = none) (hd : isDenylisted input = false) :
    resolveCore input = fuzzyMatch input := by
  unfold resolveCore
  rw [he, hn, hl, hd]
  simp only [Bool.false_eq_true, if_false]
  cases hf : fuzzyMatch input with
  | none => rw [fallbackMatch_none_of_exact input he]
  | some m => rfl

theorem resolveCore_denied (input : List Char)
    (he : exactMatch input = none) (hn : numericPrefix input = none)
    (hl : intlMatch input = none) (hd : isDenylisted input = true) :
    resolveCore input = none := by
  unfold resolveCore
  rw [he, hn, hl, hd]
  simp

theorem parse_month_ok (value : String) (m : Month)
    (h : resolveCore (normalize value.data) = some m) : parse_month value = Except.ok m := by
  unfold parse_month
  rw [h]

theorem parse_month_error (value : String)
    (h : resolveCore (normalize value.data) = none) :
    parse_month value = Except.error (.InvalidEnumValue (invalidMonthMessage value)) := by
  unfold parse_month
  rw [h]

theorem parse_month_ok_iff (value : String) (m : Month) :
    parse_month value = Except.ok m ↔ resolveCore (normalize value.data) = some m := by
  unfold parse_month
  cases h : resolveCore (normalize value.data) with
  | none => simp
  | some m2 => simp

/-! ### Table lookups miss strings that carry a punctuation or digit
character -/

/-- No token of the table that has the given length contains an ASCII
punctuation or digit character.  (Shorter or longer tokens can never be
equal to the mutated string, whatever their characters.) -/
def tokensOk (l : List (String × Month)) (len : Nat) : Prop :=
  ∀ p ∈ l, p.1.data.length = len →
    ∀ j, ∀ hj : j < p.1.data.length, ¬isPunctDigitNat ((p.1.data[j]).toNat)

theorem ne_set_of_token (t w : List Char) (i : Nat) (c : Char) (hi : i < w.length)
    (hcpd : isPunctDigitNat c.toNat)
    (h : t.length = w.length → ∀ j, ∀ hj : j < t.length, ¬isPunctDigitNat ((t[j]).toNat)) :
    t ≠ w.set i c := by
  intro heq
  subst heq
  have hji : i < (w.set i c).length := by rw [List.length_set]; exact hi
  have h2 := h (by rw [List.length_set]) i hji
  simp only [List.getElem_set_self] at h2
  exact h2 hcpd

theorem find_none_of_set (l : List (String × Month)) (w : List Char) (i : Nat) (c : Char)
    (hi : i < w.length) (hcpd : isPunctDigitNat c.toNat)
    (hQ : tokensOk l w.length) :
    l.find? (fun p => p.1.data == w.set i c) = none := by
  rw [List.find?_eq_none]
  intro p hp
  simp only [beq_iff_eq]
  exact ne_set_of_token p.1.data w i c hi hcpd (hQ p hp)

theorem exactMatch_set_none (w : List Char) (i : Nat) (c : Char)
    (hi : i < w.length) (hcpd : isPunctDigitNat c.toNat)
    (hQ : tokensOk exactTokens w.length) :
    exactMatch (w.set i c) = none := by
  unfold exactMatch
  rw [find_none_of_set exactTokens w i c hi hcpd hQ]
  rfl

theorem intlMatch_set_none (w : List Char) (i : Nat) (c : Char)
    (hi : i < w.length) (hcpd : isPunctDigitNat c.toNat)
    (hQ : tokensOk INTERNATIONAL_VARIANTS w.length) :
    intlMatch (w.set i c) = none := by
  unfold intlMatch
  rw [find_none_of_set INTERNATIONAL_VARIANTS w i c hi hcpd hQ]
  rfl

theorem isDenylisted_set_false (w : List Char) (i : Nat) (c : Char)
    (hi : i < w.length) (hcpd : isPunctDigitNat c.toNat)
    (h1 : "marsh".data.length = w.length →
      ∀ j, ∀ hj : j < "marsh".data.length, ¬isPunctDigitNat (("marsh".data[j]).toNat))
    (h2 : "julie".data.length = w.length →
      ∀ j, ∀ hj : j < "julie".data.length, ¬isPunctDigitNat (("julie".data[j]).toNat))
    (h3 : "januori".data.length = w.length →
      ∀ j, ∀ hj : j < "januori".data.length, ¬isPunctDigitNat (("januori".data[j]).toNat)) :
    isDenylisted (w.set i c) = false := by
  unfold isDenylisted
  have g1 : (w.set i c == "marsh".data) = false :=
    beq_eq_false_iff_ne.mpr (Ne.symm (ne_set_of_token _ w i c hi hcpd h1))
  have g2 : (w.set i c == "julie".data) = false :=
    beq_eq_false_iff_ne.mpr (Ne.symm (ne_set_of_token _ w i c hi hcpd h2))
  have g3 : (w.set i c == "januori".data) = false :=
    beq_eq_false_iff_ne.mpr (Ne.symm (ne_set_of_token _ w i c hi hcpd h3))
  rw [g1, g2, g3]
  rfl



instance (l : List (String × Month)) (len : Nat) : Decidable (tokensOk l len) := by
  unfold tokensOk
  infer_instance

/-! ### Aggregate character facts, decided once -/

theorem punct_facts : ∀ c ∈ punctDigitChars,
    isPunctDigitNat c.toNat ∧ rustIsWhitespace c = false ∧ Char.toLower c = c ∧
      33 ≤ c.toNat ∧ c.toNat ≤ 126 ∧ ¬(97 ≤ c.toNat ∧ c.toNat ≤ 122) ∧
      (Char.isDigit c = true ↔ 48 ≤ c.toNat ∧ c.toNat ≤ 57) := by decide

theorem month_letters : ∀ p ∈ MONTH_NAMES, ∀ x ∈ p.1.data,
    97 ≤ x.toNat ∧ x.toNat ≤ 122 ∧ rustIsWhitespace x = false ∧ Char.toLower x = x ∧
      Char.isDigit x = false := by decide

/-! ### Mutated names and the fuzzy scores -/

theorem not_mem_of_not_letter (c : Char) (t : List Char)
    (hc : ¬(97 ≤ c.toNat ∧ c.toNat ≤ 122))
    (ht : ∀ x ∈ t, 97 ≤ x.toNat ∧ x.toNat ≤ 122) : c ∉ t :=
  fun hmem => hc (ht c hmem)

theorem score_lt_of_pair (w t : List Char) (i : Nat) (c : Char)
    (hi : i < w.length) (hct : c ∉ t)
    (hB : max w.length t.length < 4 * (max w.length t.length - mcs w t))
    (ht : t ≠ []) :
    normalized_levenshtein (w.set i c) t < SIMILARITY_THRESHOLD := by
  have h3 : (w.set i c).length = w.length := List.length_set w i c
  apply score_lt_of_lev_bound _ _ (max w.length t.length - mcs w t) ?_ ?_ ht
  · have h1 := max_sub_mcs_le_lev (w.set i c) t
    have h2 := mcs_set_le w t i c hi hct
    omega
  · omega

theorem set_decomp (w : List Char) (i : Nat) (c : Char) (hi : i < w.length) :
    w.set i c = w.take i ++ c :: w.drop (i + 1) :=
  List.set_eq_take_cons_drop c hi

theorem self_decomp (w : List Char) (i : Nat) (hi : i < w.length) :
    w = w.take i ++ w[i] :: w.drop (i + 1) := by
  conv_lhs => rw [← List.take_append_drop i w, List.drop_eq_getElem_cons hi]

theorem lev_set_le_one (w : List Char) (i : Nat) (c : Char) (hi : i < w.length) :
    levenshtein strsimCost (w.set i c) w ≤ 1 := by
  calc levenshtein strsimCost (w.set i c) w
      = levenshtein strsimCost (w.take i ++ c :: w.drop (i + 1))
          (w.take i ++ w[i] :: w.drop (i + 1)) := by
        rw [← set_decomp w i c hi, ← self_decomp w i hi]
    _ ≤ 1 := lev_sub_le _ _ _ _

theorem threshold_le_score_set (w : List Char) (i : Nat) (c : Char)
    (hi : i < w.length) (h4 : 4 ≤ w.length) :
    SIMILARITY_THRESHOLD ≤ normalized_levenshtein (w.set i c) w := by
  have h3 : (w.set i c).length = w.length := List.length_set w i c
  apply threshold_le_score
  · exact lev_set_le_one w i c hi
  · omega

theorem mem_set_cases (w : List Char) (i : Nat) (c : Char) (x : Char)
    (hi : i < w.length) (hx : x ∈ w.set i c) : x = c ∨ x ∈ w := by
  rw [set_decomp w i c hi] at hx
  rcases List.mem_append.mp hx with h | h
  · exact Or.inr (List.take_subset i w h)
  · rcases List.mem_cons.mp h with h | h
    · exact Or.inl h
    · exact Or.inr (List.drop_subset _ w h)

/-! ### The numeric-prefix stage on mutated inputs -/

theorem numericPrefix_none_of_head (input : List Char)
    (h : ∀ c, input.head? = some c → Char.isDigit c = false) :
    numericPrefix input = none := by
  unfold numericPrefix
  have ht : input.takeWhile Char.isDigit = [] := by
    cases input with
    | nil => rfl
    | cons x l =>
        rw [List.takeWhile_cons, if_neg]
        rw [h x rfl]
        simp
  rw [ht]
  unfold parse_u32
  rw [if_pos rfl]

theorem numericPrefix_digit_head (c : Char) (rest : List Char)
    (hc : Char.isDigit c = true) (h57 : c.toNat ≤ 57)
    (hrest : ∀ d, rest.head? = some d → Char.isDigit d = false) :
    numericPrefix (c :: rest) =
      if 1 ≤ c.toNat - 48 ∧ c.toNat - 48 ≤ 12 then numToMonth (c.toNat - 48) else none := by
  unfold numericPrefix
  have ht : (c :: rest).takeWhile Char.isDigit = [c] := by
    rw [List.takeWhile_cons, if_pos hc]
    congr 1
    cases rest with
    | nil => rfl
    | cons d l =>
        rw [List.takeWhile_cons, if_neg]
        rw [hrest d rfl]
        simp
  rw [ht]
  unfold parse_u32
  rw [if_neg (by simp)]
  simp only [List.foldl_cons, List.foldl_nil, Nat.zero_mul, Nat.zero_add]
  rw [if_pos (by omega)]



/-! ### Small list helpers for mutated strings -/

theorem head?_mem (l : List Char) (a : Char) (h : l.head? = some a) : a ∈ l := by
  cases l with
  | nil => simp at h
  | cons x l =>
      simp only [List.head?_cons, Option.some.injEq] at h
      subst h
      exact List.mem_cons_self x l

theorem head?_set_zero (w : List Char) (c : Char) (hw : w ≠ []) :
    (w.set 0 c).head? = some c := by
  cases w with
  | nil => exact absurd rfl hw
  | cons x l => rfl

theorem head?_set_succ (w : List Char) (i : Nat) (c : Char) :
    (w.set (i + 1) c).head? = w.head? := by
  cases w with
  | nil => rfl
  | cons x l => rfl

theorem set_ne_self (w : List Char) (i : Nat) (c : Char) (hi : i < w.length)
    (hne : c ≠ w[i]) : w.set i c ≠ w := by
  intro h
  have hi2 : i < (w.set i c).length := by rw [List.length_set]; exact hi
  have h1 : (w.set i c)[i] = w[i] := by simp only [h]
  rw [List.getElem_set_self] at h1
  exact hne h1

theorem numericPrefix_set_zero (w : List Char) (c : Char) (hw : 0 < w.length)
    (hc : Char.isDigit c = true) (h57 : c.toNat ≤ 57)
    (htail : ∀ d, (w.drop 1).head? = some d → Char.isDigit d = false) :
    numericPrefix (w.set 0 c) =
      if 1 ≤ c.toNat - 48 ∧ c.toNat - 48 ≤ 12 then numToMonth (c.toNat - 48) else none := by
  cases w with
  | nil => simp at hw
  | cons x rest =>
      rw [List.set_cons_zero]
      exact numericPrefix_digit_head c rest hc h57 (by simpa using htail)

/-! ### Aggregate facts about the tables, decided once -/

theorem month_tokensOk : ∀ p ∈ MONTH_NAMES,
    tokensOk exactTokens p.1.data.length ∧
      tokensOk INTERNATIONAL_VARIANTS p.1.data.length := by decide

theorem deny_chars :
    (∀ j, ∀ hj : j < "marsh".data.length, ¬isPunctDigitNat (("marsh".data[j]).toNat)) ∧
    (∀ j, ∀ hj : j < "julie".data.length, ¬isPunctDigitNat (("julie".data[j]).toNat)) ∧
    (∀ j, ∀ hj : j < "januori".data.length, ¬isPunctDigitNat (("januori".data[j]).toNat)) := by
  decide

theorem month_pair_bounds : ∀ p ∈ MONTH_NAMES, ∀ q ∈ MONTH_NAMES,
    q.1.data = p.1.data ∨
      max p.1.data.length q.1.data.length <
        4 * (max p.1.data.length q.1.data.length - mcs p.1.data q.1.data) := by decide

theorem month_misc : ∀ p ∈ MONTH_NAMES,
    3 ≤ p.1.data.length ∧ (p.1 = "may" ∨ 4 ≤ p.1.data.length) ∧
      (p.1 = "may" → p.1.data = "may".data ∧ p.1.data.length = 3) := by decide

theorem month_name_uniq : ∀ p ∈ MONTH_NAMES, ∀ q ∈ MONTH_NAMES,
    q.1.data = p.1.data → q.2 = p.2 := by decide

theorem numToMonth_digits : ∀ d ∈ [1, 2, 3, 4, 5, 6, 7, 8, 9],
    ∃ m, numToMonth d = some m := by decide



/-- C2 (amended): replacing a single character of a canonical month name by an ASCII
punctuation or digit character resolves as follows: a digit 1-9 in the first position
resolves through the numeric-prefix stage to the month named by that digit; any other
replacement in "may" is rejected; any other replacement in the remaining eleven names
still resolves to the original month through the fuzzy matcher with a score meeting the
threshold. -/
theorem c2_single_char_mutations :
    ∀ p ∈ MONTH_NAMES, ∀ i, ∀ hi : i < p.1.data.length, ∀ c ∈ punctDigitChars,
      if i = 0 ∧ 49 ≤ c.toNat ∧ c.toNat ≤ 57 then
        ∃ m, numToMonth (c.toNat - 48) = some m ∧
          parse_month (String.mk (p.1.data.set i c)) = Except.ok m
      else if p.1 = "may" then
        parse_month (String.mk (p.1.data.set i c)) =
          Except.error (ValidationError.InvalidEnumValue
            (invalidMonthMessage (String.mk (p.1.data.set i c))))
      else
        parse_month (String.mk (p.1.data.set i c)) = Except.ok p.2 ∧
          SIMILARITY_THRESHOLD ≤ normalized_levenshtein (p.1.data.set i c) p.1.data := by
  intro p hp i hi c hc
  obtain ⟨hpd, hws, hlow, h33, h126, hnl, hdigiff⟩ := punct_facts c hc
  have hlet := month_letters p hp
  have hlen3 := (month_misc p hp).1
  have hne_nil : p.1.data ≠ [] := by
    intro h0
    rw [h0] at hlen3
    simp at hlen3
  have htok := month_tokensOk p hp
  have hnorm : normalize (p.1.data.set i c) = p.1.data.set i c := by
    apply normalize_eq_self
    intro x hx
    rcases mem_set_cases p.1.data i c x hi hx with rfl | hxw
    · exact ⟨hws, hlow⟩
    · have hx2 := hlet x hxw
      exact ⟨hx2.2.2.1, hx2.2.2.2.1⟩
  have hex : exactMatch (p.1.data.set i c) = none :=
    exactMatch_set_none p.1.data i c hi hpd htok.1
  have hintl : intlMatch (p.1.data.set i c) = none :=
    intlMatch_set_none p.1.data i c hi hpd htok.2
  have hdeny : isDenylisted (p.1.data.set i c) = false :=
    isDenylisted_set_false p.1.data i c hi hpd (fun _ => deny_chars.1)
      (fun _ => deny_chars.2.1) (fun _ => deny_chars.2.2)
  have htail : ∀ d, (p.1.data.drop 1).head? = some d → Char.isDigit d = false := by
    intro d hd
    exact (hlet d (List.drop_subset 1 p.1.data (head?_mem _ d hd))).2.2.2.2
  by_cases hbr : i = 0 ∧ 49 ≤ c.toNat ∧ c.toNat ≤ 57
  · rw [if_pos hbr]
    obtain ⟨hi0, h49, h57⟩ := hbr
    subst hi0
    have hdigc : Char.isDigit c = true := hdigiff.mpr ⟨by omega, by omega⟩
    have hnum := numericPrefix_set_zero p.1.data c (by omega) hdigc h57 htail
    rw [if_pos (show 1 ≤ c.toNat - 48 ∧ c.toNat - 48 ≤ 12 by omega)] at hnum
    obtain ⟨m, hm⟩ := numToMonth_digits (c.toNat - 48) (by simp; omega)
    refine ⟨m, hm, ?_⟩
    apply parse_month_ok
    show resolveCore (normalize (p.1.data.set 0 c)) = some m
    rw [hnorm]
    exact resolveCore_numeric _ m hex (by rw [hnum]; exact hm)
  · rw [if_neg hbr]
    have hnp : numericPrefix (p.1.data.set i c) = none := by
      rcases Nat.eq_zero_or_pos i with hi0 | hipos
      · subst hi0
        by_cases hcd : Char.isDigit c = true
        · have h48 : c.toNat = 48 := by
            have hr := hdigiff.mp hcd
            have hb2 : ¬(49 ≤ c.toNat ∧ c.toNat ≤ 57) := fun h => hbr ⟨rfl, h⟩
            omega
          have hnum := numericPrefix_set_zero p.1.data c (by omega) hcd (by omega) htail
          rw [if_neg (by omega)] at hnum
          exact hnum
        · apply numericPrefix_none_of_head
          intro d hd
          rw [head?_set_zero p.1.data c hne_nil] at hd
          injection hd with hd
          subst hd
          exact Bool.eq_false_iff.mpr hcd
      · obtain ⟨j, rfl⟩ : ∃ j, i = j + 1 := ⟨i - 1, by omega⟩
        apply numericPrefix_none_of_head
        intro d hd
        rw [head?_set_succ] at hd
        exact (hlet d (head?_mem _ d hd)).2.2.2.2
    by_cases hmay : p.1 = "may"
    · rw [if_pos hmay]
      obtain ⟨hmd, hml⟩ := (month_misc p hp).2.2 hmay
      have hfz : fuzzyMatch (p.1.data.set i c) = none := by
        apply fuzzyMatch_eq_none_of_below
        intro q hq
        by_cases hqw : q.1.data = p.1.data
        · rw [hqw]
          apply score_lt_of_lev_bound _ _ 1 ?_ ?_ hne_nil
          · rcases Nat.eq_zero_or_pos (levenshtein strsimCost (p.1.data.set i c) p.1.data)
              with h0 | h1
            · exfalso
              have heqw := eq_of_lev_eq_zero _ _ h0
              have hwi := hlet (p.1.data[i]) (p.1.data.getElem_mem hi)
              have hnec : c ≠ p.1.data[i] := by
                intro hcw
                apply hnl
                rw [hcw]
                exact ⟨hwi.1, hwi.2.1⟩
              exact set_ne_self p.1.data i c hi hnec heqw
            · exact h1
          · rw [List.length_set]
            omega
        · refine (month_pair_bounds p hp q hq).elim (fun heq => absurd heq hqw) ?_
          intro hbound
          apply score_lt_of_pair p.1.data q.1.data i c hi ?_ hbound ?_
          · exact not_mem_of_not_letter c q.1.data hnl
              (fun x hx => ⟨(month_letters q hq x hx).1, (month_letters q hq x hx).2.1⟩)
          · intro h0
            have h3 := (month_misc q hq).1
            rw [h0] at h3
            simp at h3
      apply parse_month_error
      show resolveCore (normalize (p.1.data.set i c)) = none
      rw [hnorm, resolveCore_fuzzy _ hex hnp hintl hdeny]
      exact hfz
    · rw [if_neg hmay]
      have h4 : 4 ≤ p.1.data.length := by
        rcases (month_misc p hp).2.1 with h | h
        · exact absurd h hmay
        · exact h
      have hthr := threshold_le_score_set p.1.data i c hi h4
      have hfz : fuzzyMatch (p.1.data.set i c) = some p.2 := by
        apply fuzzyMatch_eq_some_of _ p.1.data p.2 ?_ hthr ?_ ?_
        · obtain ⟨k, hk, hkp⟩ := List.mem_iff_getElem.mp hp
          exact ⟨k, hk, by rw [hkp], by rw [hkp]⟩
        · intro q hq hne
          refine lt_of_lt_of_le ?_ hthr
          refine (month_pair_bounds p hp q hq).elim (fun heq => absurd heq hne) ?_
          intro hbound
          apply score_lt_of_pair p.1.data q.1.data i c hi ?_ hbound ?_
          · exact not_mem_of_not_letter c q.1.data hnl
              (fun x hx => ⟨(month_letters q hq x hx).1, (month_letters q hq x hx).2.1⟩)
          · intro h0
            have h3 := (month_misc q hq).1
            rw [h0] at h3
            simp at h3
        · exact fun q hq => month_name_uniq p hp q hq
      refine ⟨?_, hthr⟩
      apply parse_month_ok
      show resolveCore (normalize (p.1.data.set i c)) = some p.2
      rw [hnorm, resolveCore_fuzzy _ hex hnp hintl hdeny]
      exact hfz



/-! ### Further helper facts for the claim theorems -/

theorem exactMatch_token : ∀ t ∈ exactTokens, exactMatch t.1.data = some t.2 := by decide

theorem exactMatch_some_elim (input : List Char) (m : Month)
    (h : exactMatch input = some m) :
    ∃ t ∈ exactTokens, t.1.data = input ∧ t.2 = m := by
  unfold exactMatch at h
  rw [Option.map_eq_some'] at h
  obtain ⟨t, hf, hm⟩ := h
  have hmem := List.mem_of_find?_eq_some hf
  have hpred := List.find?_some hf
  simp only [beq_iff_eq] at hpred
  exact ⟨t, hmem, hpred, hm⟩

theorem numToMonth_all : ∀ n ∈ [1, 2, 3, 4, 5, 6, 7, 8, 9, 10, 11, 12],
    ∃ m, numToMonth n = some m ∧ monthNumber m = n := by decide

theorem numToMonth_some (n : Nat) (h1 : 1 ≤ n) (h2 : n ≤ 12) :
    ∃ m, numToMonth n = some m ∧ monthNumber m = n :=
  numToMonth_all n (by simp; omega)

theorem exactToken_numeric : ∀ t ∈ exactTokens,
    ∀ n ∈ [1, 2, 3, 4, 5, 6, 7, 8, 9, 10, 11, 12],
      parse_u32 (t.1.data.takeWhile Char.isDigit) = some n → numToMonth n = some t.2 := by
  decide

theorem deny_stage_none :
    (exactMatch "marsh".data = none ∧ numericPrefix "marsh".data = none ∧
      intlMatch "marsh".data = none ∧ isDenylisted "marsh".data = true) ∧
    (exactMatch "julie".data = none ∧ numericPrefix "julie".data = none ∧
      intlMatch "julie".data = none ∧ isDenylisted "julie".data = true) ∧
    (exactMatch "januori".data = none ∧ numericPrefix "januori".data = none ∧
      intlMatch "januori".data = none ∧ isDenylisted "januori".data = true) := by
  decide

/-! ### The claims -/

/-- C1 (amended): for every input, the fuzzy stage pairs each canonical month
name with its normalized similarity score in table order January..December and
selects a maximal score; but on ties the LAST maximum in table order wins, not
the first, because the underlying fold keeps the earlier element only when its
score is strictly greater.  The selected month is returned exactly when its
score reaches the 0.75 threshold. -/
theorem c1_fuzzy_selects_last_maximum (input : List Char) :
    ∃ i, ∃ hi : i < MONTH_NAMES.length,
      (∀ j, ∀ hj : j < MONTH_NAMES.length,
        normalized_levenshtein input ((MONTH_NAMES[j]).1.data) ≤
          normalized_levenshtein input ((MONTH_NAMES[i]).1.data)) ∧
      (∀ j, ∀ hj : j < MONTH_NAMES.length, i < j →
        normalized_levenshtein input ((MONTH_NAMES[j]).1.data) <
          normalized_levenshtein input ((MONTH_NAMES[i]).1.data)) ∧
      fuzzyMatch input =
        (if SIMILARITY_THRESHOLD ≤ normalized_levenshtein input ((MONTH_NAMES[i]).1.data)
          then some (MONTH_NAMES[i]).2 else none) := by
  obtain ⟨i, hi, heq, hmax, hstrict⟩ :=
    maxBy_spec (scoredMonths input) (scoredMonths_ne_nil input)
  have hi2 : i < MONTH_NAMES.length := by rw [← scoredMonths_len input]; exact hi
  have hsi := scoredMonths_get input i hi hi2
  refine ⟨i, hi2, ?_, ?_, ?_⟩
  · intro j hj
    have hj2 : j < (scoredMonths input).length := by rw [scoredMonths_len input]; exact hj
    have h := hmax j hj2
    rw [scoredMonths_get input j hj2 hj, hsi] at h
    exact h
  · intro j hj hij
    have hj2 : j < (scoredMonths input).length := by rw [scoredMonths_len input]; exact hj
    have h := hstrict j hj2 hij
    rw [scoredMonths_get input j hj2 hj, hsi] at h
    exact h
  · have heq2 : maxBy (scoredMonths input) =
        some (((scoredMonths input)[i]).1, ((scoredMonths input)[i]).2) := by rw [heq]
    rw [fuzzyMatch_eq input _ _ heq2, hsi]

/-- C1 counterexample: the input "juny" scores exactly 0.75 against both
"june" and "july", a maximal tie over the table, yet `parse_month` resolves
it to July, the later of the two — refuting "first maximum wins". -/
theorem c1_first_maximum_counterexample :
    normalized_levenshtein "juny".data "june".data = SIMILARITY_THRESHOLD ∧
      normalized_levenshtein "juny".data "july".data = SIMILARITY_THRESHOLD ∧
      (∀ p ∈ MONTH_NAMES, normalized_levenshtein "juny".data p.1.data ≤
        SIMILARITY_THRESHOLD) ∧
      parse_month "juny" = Except.ok Month.July := by
  refine ⟨by decide, by decide, by decide, by decide!⟩

/-- C3: for every entry of the exact/abbreviation table — full English names,
3-letter abbreviations (plus "ja" and "sept"), unpadded numeric strings
"1".."12" and zero-padded "01".."09" — every input string that trims and
lowercases to that entry's token is resolved by `parse_month` to that entry's
month. -/
theorem c3_exact_token_resolution :
    ∀ t ∈ exactTokens, ∀ s : String, normalize s.data = t.1.data →
      parse_month s = Except.ok t.2 := by
  intro t ht s hnorm
  apply parse_month_ok
  rw [hnorm]
  exact resolveCore_exact _ _ (exactMatch_token t ht)

/-- C3 witness: " JANUARY " — uppercase, surrounded by whitespace — resolves
to January through the exact table. -/
theorem c3_exact_token_resolution_witness :
    ("january", Month.January) ∈ exactTokens ∧
      normalize " JANUARY ".data = "january".data ∧
      parse_month " JANUARY " = Except.ok Month.January := by
  refine ⟨by decide, by decide, ?_⟩
  exact c3_exact_token_resolution ("january", Month.January) (by decide) " JANUARY "
    (by decide)

/-- C4: the numeric-prefix stage.  First conjunct: whenever the normalized
input's leading ASCII-digit run parses to n with 1 ≤ n ≤ 12, `parse_month`
returns the month with calendar number n, whatever the non-digit suffix.
Middle conjuncts: the documented ordinal and garbage-suffix examples, and the
rejections of "0" and "13".  Last conjunct: when the digit run parses to 0 or
to 13 or more, the numeric stage itself yields nothing. -/
theorem c4_numeric_prefix :
    (∀ s : String, ∀ n : Nat, 1 ≤ n → n ≤ 12 →
      parse_u32 ((normalize s.data).takeWhile Char.isDigit) = some n →
      ∃ m, numToMonth n = some m ∧ monthNumber m = n ∧ parse_month s = Except.ok m) ∧
    parse_month "1st" = Except.ok Month.January ∧
    parse_month "2nd" = Except.ok Month.February ∧
    parse_month "3rd" = Except.ok Month.March ∧
    parse_month "4th" = Except.ok Month.April ∧
    parse_month "1xyz" = Except.ok Month.January ∧
    parse_month "0" = Except.error (ValidationError.InvalidEnumValue (invalidMonthMessage "0")) ∧
    parse_month "13" = Except.error (ValidationError.InvalidEnumValue (invalidMonthMessage "13")) ∧
    (∀ input : List Char, ∀ n : Nat,
      parse_u32 (input.takeWhile Char.isDigit) = some n → n = 0 ∨ 13 ≤ n →
      numericPrefix input = none) := by
  refine ⟨?_, by decide!, by decide!, by decide!, by decide!, by decide!, by decide!,
    by decide!, ?_⟩
  · intro s n h1 h12 hparse
    have hmem : n ∈ [1, 2, 3, 4, 5, 6, 7, 8, 9, 10, 11, 12] := by simp; omega
    obtain ⟨m, hm, hnum⟩ := numToMonth_all n hmem
    refine ⟨m, hm, hnum, ?_⟩
    apply parse_month_ok
    cases hex : exactMatch (normalize s.data) with
    | some m2 =>
        obtain ⟨t, ht, htd, htm⟩ := exactMatch_some_elim _ _ hex
        have h2 : numToMonth n = some t.2 :=
          exactToken_numeric t ht n hmem (by rw [htd]; exact hparse)
        rw [hm] at h2
        injection h2 with h2
        rw [resolveCore_exact _ _ hex, h2, htm]
    | none =>
        apply resolveCore_numeric _ _ hex
        unfold numericPrefix
        rw [hparse]
        show (if 1 ≤ n ∧ n ≤ 12 then numToMonth n else none) = some m
        rw [if_pos ⟨h1, h12⟩, hm]
  · intro input n hparse hout
    unfold numericPrefix
    rw [hparse]
    show (if 1 ≤ n ∧ n ≤ 12 then numToMonth n else none) = none
    rw [if_neg (by rcases hout with h | h <;> omega)]

/-- C5: every input whose trimmed, lowercased form is one of the denylisted
tokens "marsh", "julie", "januori" is rejected with the standard error — the
resolver returns before the fuzzy stage is consulted.  The final conjuncts
show the bypass matters: the fuzzy matcher by itself would accept "marsh" as
March with score 0.8. -/
theorem c5_denylist_rejection :
    (∀ s : String, isDenylisted (normalize s.data) = true →
      parse_month s =
        Except.error (ValidationError.InvalidEnumValue (invalidMonthMessage s))) ∧
    fuzzyMatch "marsh".data = some Month.March ∧
    SIMILARITY_THRESHOLD ≤ normalized_levenshtein "marsh".data "march".data := by
  refine ⟨?_, by decide!, by decide⟩
  intro s hd
  apply parse_month_error
  have hcases : normalize s.data = "marsh".data ∨ normalize s.data = "julie".data ∨
      normalize s.data = "januori".data := by
    unfold isDenylisted at hd
    simp only [Bool.or_eq_true, beq_iff_eq] at hd
    tauto
  rcases hcases with h | h | h <;> rw [h]
  · exact resolveCore_denied _ deny_stage_none.1.1 deny_stage_none.1.2.1
      deny_stage_none.1.2.2.1 deny_stage_none.1.2.2.2
  · exact resolveCore_denied _ deny_stage_none.2.1.1 deny_stage_none.2.1.2.1
      deny_stage_none.2.1.2.2.1 deny_stage_none.2.1.2.2.2
  · exact resolveCore_denied _ deny_stage_none.2.2.1 deny_stage_none.2.2.2.1
      deny_stage_none.2.2.2.2.1 deny_stage_none.2.2.2.2.2

/-- C6: whenever `parse_month` fails it returns the single error shape
`InvalidEnumValue` carrying exactly "Invalid month: {raw}. Enter a month from
January to December" built from the original, untrimmed, un-lowercased
input. -/
theorem c6_error_shape (s : String) (e : ValidationError)
    (h : parse_month s = Except.error e) :
    e = ValidationError.InvalidEnumValue (invalidMonthMessage s) := by
  unfold parse_month at h
  cases hr : resolveCore (normalize s.data) with
  | some m => rw [hr] at h; simp at h
  | none =>
      rw [hr] at h
      simp only [Except.error.injEq] at h
      exact h.symm

/-- C6 witness: " Xyz " fails, and the message embeds the raw input
" Xyz " — spaces and capital letter intact — not its normalized form. -/
theorem c6_error_shape_witness :
    parse_month " Xyz " = Except.error (ValidationError.InvalidEnumValue
        "Invalid month:  Xyz . Enter a month from January to December") ∧
      ValidationError.InvalidEnumValue
          "Invalid month:  Xyz . Enter a month from January to December" =
        ValidationError.InvalidEnumValue (invalidMonthMessage " Xyz ") := by
  have herr : parse_month " Xyz " = Except.error (ValidationError.InvalidEnumValue
      "Invalid month:  Xyz . Enter a month from January to December") := by decide!
  exact ⟨herr, c6_error_shape " Xyz " _ herr⟩

/-- C7: appending the single character "x" to any canonical month name still
resolves to that month, through the fuzzy stage with a score at or above the
threshold; wrapping any canonical name as "xxx" + name + "yyy" is rejected. -/
theorem c7_appended_and_wrapped :
    ∀ p ∈ MONTH_NAMES,
      (parse_month (String.mk (p.1.data ++ ['x'])) = Except.ok p.2 ∧
        SIMILARITY_THRESHOLD ≤ normalized_levenshtein (p.1.data ++ ['x']) p.1.data) ∧
      parse_month (String.mk ("xxx".data ++ p.1.data ++ "yyy".data)) =
        Except.error (ValidationError.InvalidEnumValue
          (invalidMonthMessage (String.mk ("xxx".data ++ p.1.data ++ "yyy".data)))) := by
  decide!

/-- C7 witness: "januaryx" resolves to January; "xxxjanuaryyyy" fails. -/
theorem c7_appended_and_wrapped_witness :
    ("january", Month.January) ∈ MONTH_NAMES ∧
      parse_month (String.mk ("january".data ++ ['x'])) = Except.ok Month.January ∧
      parse_month (String.mk ("xxx".data ++ "january".data ++ "yyy".data)) =
        Except.error (ValidationError.InvalidEnumValue
          (invalidMonthMessage (String.mk ("xxx".data ++ "january".data ++ "yyy".data)))) := by
  have h := c7_appended_and_wrapped ("january", Month.January) (by decide)
  exact ⟨by decide, h.1.1, h.2⟩

/-- C8 (amended): the fallback re-check after the fuzzy stage is NOT a
verbatim repeat of step 2 — its token table is step 2's table with the
two-letter January abbreviation "ja" removed — but it is still unreachable
dead code: `parse_month` agrees on every input with the variant that omits
the fallback, because the fallback only runs when the (larger) step-2 table
has already failed to match. -/
theorem c8_fallback_is_dead_code :
    fallbackTokens = exactTokens.filter (fun t => t.1 != "ja") ∧
      ∀ value : String, parse_month value = parse_month_noFallback value := by
  constructor
  · decide
  · intro value
    unfold parse_month parse_month_noFallback
    have h : resolveCore (normalize value.data) =
        resolveCoreNoFallback (normalize value.data) := by
      unfold resolveCore resolveCoreNoFallback
      cases hex : exactMatch (normalize value.data) with
      | some m => rfl
      | none =>
          cases numericPrefix (normalize value.data) <;>
            cases intlMatch (normalize value.data) <;>
            cases isDenylisted (normalize value.data) <;>
            cases fuzzyMatch (normalize value.data) <;>
            first
            | rfl
            | rw [fallbackMatch_none_of_exact _ hex]
    rw [h]

/-- C8 counterexample: the input "ja" separates the two tables — step 2's
table resolves it to January while the fallback's table does not contain it
at all, so the fallback does not repeat step 2's comparison. -/
theorem c8_fallback_omits_ja :
    ("ja", Month.January) ∈ exactTokens ∧
      (∀ t ∈ fallbackTokens, t.1 ≠ "ja") ∧
      exactMatch "ja".data = some Month.January ∧
      fallbackMatch "ja".data = none := by
  refine ⟨by decide, by decide, by decide, by decide⟩

/-- C9: `parse_month` never panics: the variant whose `none` result marks an
execution of the numeric dispatch's `unreachable!()` arm always returns
`some` — the guard 1 ≤ n ≤ 12 makes the dispatch total, and the score
comparison inside `max_by` is total on exact rationals — and what it returns
is exactly `parse_month`'s result. -/
theorem c9_panic_free (value : String) :
    parse_monthChecked value = some (parse_month value) := by
  unfold parse_monthChecked parse_month
  have h : resolveCoreChecked (normalize value.data) =
      some (resolveCore (normalize value.data)) := by
    generalize normalize value.data = input
    unfold resolveCoreChecked resolveCore numericPrefix
    cases hex : exactMatch input with
    | some m => rfl
    | none =>
        cases hnum : parse_u32 (input.takeWhile Char.isDigit) with
        | none =>
            cases intlMatch input <;> cases isDenylisted input <;>
              cases fuzzyMatch input <;> cases fallbackMatch input <;> rfl
        | some n =>
            by_cases hrange : 1 ≤ n ∧ n ≤ 12
            · obtain ⟨m, hm, hmn⟩ := numToMonth_some n hrange.1 hrange.2
              simp only [if_pos hrange, hm]
            · simp only [if_neg hrange]
              cases intlMatch input <;> cases isDenylisted input <;>
                cases fuzzyMatch input <;> cases fallbackMatch input <;> rfl
  rw [h]
  cases resolveCore (normalize value.data) <;> rfl

/-- C10: acceptance depends only on the normalized input: `parse_month`
returns `Ok m` on an input exactly when it returns `Ok m` on the trimmed,
lowercased input; and when the raw input fails, the normalized input fails
too, with the message built from its own (normalized) raw text. -/
theorem c10_acceptance_is_normalization_invariant (s : String) :
    (∀ m : Month, parse_month s = Except.ok m ↔
      parse_month (String.mk (normalize s.data)) = Except.ok m) ∧
    (∀ e, parse_month s = Except.error e →
      parse_month (String.mk (normalize s.data)) =
        Except.error (ValidationError.InvalidEnumValue
          (invalidMonthMessage (String.mk (normalize s.data))))) := by
  have hdata : (String.mk (normalize s.data)).data = normalize s.data := rfl
  constructor
  · intro m
    rw [parse_month_ok_iff, parse_month_ok_iff, hdata, normalize_idem]
  · intro e he
    apply parse_month_error
    rw [hdata, normalize_idem]
    cases hr : resolveCore (normalize s.data) with
    | none => rfl
    | some m =>
        exfalso
        have := (parse_month_ok_iff s m).mpr hr
        rw [this] at he
        simp at he



/-- C2 counterexample: replacing the "a" of "may" with "@" gives "m@y", which
is rejected — its fuzzy score 2/3 is below the threshold; and replacing the
"j" of "january" with "2" gives "2anuary", which resolves to February through
the numeric-prefix stage, not to January.  Both refute the claim that every
punctuation/digit replacement inside a canonical name resolves to that name's
month via the fuzzy matcher. -/
theorem c2_single_char_mutations_counterexample :
    "may".data.set 1 '@' = "m@y".data ∧
      parse_month "m@y" =
        Except.error (ValidationError.InvalidEnumValue (invalidMonthMessage "m@y")) ∧
      normalized_levenshtein "m@y".data "may".data < SIMILARITY_THRESHOLD ∧
      "january".data.set 0 '2' = "2anuary".data ∧
      parse_month "2anuary" = Except.ok Month.February := by
  refine ⟨by decide, by decide!, by decide, by decide, by decide!⟩

/-- C2 witness: replacing the second character of "january" with "@" gives
"j@nuary", which still resolves to January with a score meeting the
threshold. -/
theorem c2_single_char_mutations_witness :
    ("january", Month.January) ∈ MONTH_NAMES ∧ (1 : Nat) < "january".data.length ∧
      '@' ∈ punctDigitChars ∧
      parse_month (String.mk ("january".data.set 1 '@')) = Except.ok Month.January ∧
      SIMILARITY_THRESHOLD ≤ normalized_levenshtein ("january".data.set 1 '@') "january".data := by
  have h := c2_single_char_mutations ("january", Month.January) (by decide) 1 (by decide)
    '@' (by decide)
  rw [if_neg (by decide), if_neg (by decide)] at h
  exact ⟨by decide, by decide, by decide, h.1, h.2⟩


end Fuzzymonth
